import Mathlib

/-!
Verification of the lcm-rust repository: a shallow embedding of the
marshalling code (lcm/src/message.rs), the derive-time type hash
(lcm-derive/src/lib.rs), the UDPM publish and reassembly paths
(lcm/src/lcm/providers/udpm.rs) and the SPSC ring (lcm/src/utils/spsc.rs),
together with theorems settling the spec claims.

Machine integers are modelled as `Nat` bit patterns (with explicit
`% 2 ^ w` where wrapping matters) or as bounded `Int` values for signed
quantities.  Fallible operations return `Option`; `none` models a Rust
panic (slice out of range, integer overflow in a checked context) or an
`Err` return, as noted at each definition.
-/

namespace LcmModel

/-- Wrap-around modulus for 64-bit values (u64 / i64 bit patterns, usize). -/
def W64 : Nat := 18446744073709551616

/-- Wrap-around modulus for 32-bit values (u32 / i32 bit patterns). -/
def W32 : Nat := 4294967296

/-- Big-endian byte list of the low `w` bytes of `n`; byte 0 is the most
significant.  Models the byteorder NetworkEndian writers. -/
def beBytes : Nat → Nat → List Nat
  | 0, _ => []
  | w + 1, n => (n / 256 ^ w) % 256 :: beBytes w n

/-- Big-endian value of a byte list (most significant first), as read by the
byteorder NetworkEndian readers. -/
def beVal (bytes : List Nat) : Nat := bytes.foldl (fun acc b => acc * 256 + b) 0

/-- Two's-complement signed value of a `w`-bit pattern `n < 2 ^ w`. -/
def toSigned (w : Nat) (n : Nat) : Int :=
  if n < 2 ^ (w - 1) then (n : Int) else (n : Int) - ((2 ^ w : Nat) : Int)

/-! ## Type hash (lcm-derive/src/lib.rs, calculate_hash and the HASH constant)

The derive computes on `i64`; we carry the 64-bit pattern as a `Nat < W64`.
`<<` shifts bits out at the top, `>>` on i64 is an arithmetic (sign
extending) shift, and `c as i64` for `c : i8` sign extends. -/

/-- Left shift by 8 of an i64 bit pattern, keeping 64 bits. -/
def shl8 (v : Nat) : Nat := (v * 256) % W64

/-- Arithmetic (sign extending) right shift by 55 of an i64 bit pattern. -/
def ashr55 (v : Nat) : Nat :=
  if v < 9223372036854775808 then v / 36028797018963968
  else v / 36028797018963968 + (W64 - 512)

/-- The u64 bit pattern of `c as i8 as i64`: the low byte of `c`, sign
extended to 64 bits.  Both call sites of hash_update cast through `i8`. -/
def sext8 (c : Nat) : Nat :=
  let b := c % 256
  if b < 128 then b else W64 - 256 + b

/-- Model of `hash_update` in lcm-derive: `((v << 8) ^ (v >> 55)) + c as i64`,
on i64 with wrapping addition. -/
def hashUpdate (v c : Nat) : Nat := (Nat.xor (shl8 v) (ashr55 v) + sext8 c) % W64

/-- Model of `hash_string_update`: fold `hash_update` over the string,
seeded with `hash_update v (s.len() as i8)`. -/
def hashStringUpdate (v : Nat) (s : List Nat) : Nat :=
  s.foldl hashUpdate (hashUpdate v s.length)

/-- The field base type as parsed by lcm-derive (parse.rs, `Ty`).
Strings are carried as lists of ASCII codes. -/
inductive Ty where
  | int8
  | int16
  | int32
  | int64
  | float
  | double
  | str
  | boolean
  | user (name : List Nat)
deriving DecidableEq

/-- Model of `Ty::is_primitive_type`. -/
def Ty.isPrimitiveType : Ty → Bool
  | .user _ => false
  | _ => true

/-- Model of `Ty::as_str`, as ASCII byte lists
("int8_t", "int16_t", "int32_t", "int64_t", "float", "double", "string",
"boolean"; a user type yields its own name). -/
def Ty.asStr : Ty → List Nat
  | .int8 => [105, 110, 116, 56, 95, 116]
  | .int16 => [105, 110, 116, 49, 54, 95, 116]
  | .int32 => [105, 110, 116, 51, 50, 95, 116]
  | .int64 => [105, 110, 116, 54, 52, 95, 116]
  | .float => [102, 108, 111, 97, 116]
  | .double => [100, 111, 117, 98, 108, 101]
  | .str => [115, 116, 114, 105, 110, 103]
  | .boolean => [98, 111, 111, 108, 101, 97, 110]
  | .user s => s

/-- A field dimension (parse.rs, `Dim`): fixed size or named by another field. -/
inductive Dim where
  | fixed (n : Nat)
  | var (name : List Nat)
deriving DecidableEq

/-- Model of `Dim::mode`: 0 for fixed, 1 for variable. -/
def Dim.mode : Dim → Nat
  | .fixed _ => 0
  | .var _ => 1

/-- Decimal ASCII digits of `n`, as produced by `format!("{}", n)`. -/
def decimalDigits (n : Nat) : List Nat := (Nat.toDigits 10 n).map Char.toNat

/-- Model of `Dim::as_cow`: fixed dimensions print their decimal digits,
variable dimensions yield the referenced field name. -/
def Dim.asCow : Dim → List Nat
  | .fixed n => decimalDigits n
  | .var s => s

/-- A struct field as seen by the derive (parse.rs, `Field`). -/
structure Field where
  name : List Nat
  baseType : Ty
  dims : List Dim
deriving DecidableEq

/-- One iteration of the field loop of `calculate_hash`: hash the name, the
type string only for primitives, the dimension count, and each dimension's
mode and text. -/
def hashField (v : Nat) (f : Field) : Nat :=
  let v1 := hashStringUpdate v f.name
  let v2 := if f.baseType.isPrimitiveType then hashStringUpdate v1 f.baseType.asStr else v1
  let v3 := hashUpdate v2 f.dims.length
  f.dims.foldl (fun w d => hashStringUpdate (hashUpdate w d.mode) d.asCow) v3

/-- Model of `calculate_hash` in lcm-derive/src/lib.rs: fold `hashField`
over the fields, seeded with 0x12345678. -/
def calculateHash (fields : List Field) : Nat :=
  fields.foldl hashField 305419896

/-- Model of the final rotate emitted into the HASH constant:
`(PRE_HASH << 1) + ((PRE_HASH >> 63) & 1)` on u64. -/
def rotl1 (pre : Nat) : Nat := pre * 2 % W64 + pre / 9223372036854775808 % 2

/-- Model of the emitted `HASH` constant: `PRE_HASH` is `calculate_hash`
plus the `HASH` of every user-typed field (in field order), then one left
rotate by one bit. -/
def messageHash (fields : List Field) (userFieldHashes : List Nat) : Nat :=
  rotl1 ((calculateHash fields + userFieldHashes.sum) % W64)

/-- Renaming of user types inside a base type; primitives are untouched. -/
def renameUser (g : List Nat → List Nat) : Ty → Ty
  | .user s => .user (g s)
  | t => t

/-- Renaming of user types inside a field. -/
def Field.renameUserTypes (g : List Nat → List Nat) (f : Field) : Field :=
  { f with baseType := renameUser g f.baseType }

/-- Fields of `Temperature { utime : i64, degCelsius : f64 }`. -/
def temperatureFields : List Field :=
  [⟨[117, 116, 105, 109, 101], .int64, []⟩,
   ⟨[100, 101, 103, 67, 101, 108, 115, 105, 117, 115], .double, []⟩]

/-- Fields of `Point2dList { npoints : i32, points : f64[npoints][2] }`. -/
def point2dListFields : List Field :=
  [⟨[110, 112, 111, 105, 110, 116, 115], .int32, []⟩,
   ⟨[112, 111, 105, 110, 116, 115], .double,
    [.var [110, 112, 111, 105, 110, 116, 115], .fixed 2]⟩]

/-- Fields of `MyStruct { x : i32, y : i32 }`. -/
def myStructFields : List Field :=
  [⟨[120], .int32, []⟩, ⟨[121], .int32, []⟩]

/-- Fields of `MemberGroup { x : f64, y : f64, z : f64 }`. -/
def memberGroupFields : List Field :=
  [⟨[120], .double, []⟩, ⟨[121], .double, []⟩, ⟨[122], .double, []⟩]

/-! ## Marshalling (lcm/src/message.rs)

Values travel through io::Read / io::Write streams, modelled as byte
lists; a decoder consumes a prefix and returns the value and the rest of
the stream, and `none` models an `Err` return. -/

/-- Reads `w` bytes from the stream; `none` models the io::Read error on an
exhausted stream (the impls read byte by byte, failing as soon as the
stream runs out). -/
def readBytes (w : Nat) (s : List Nat) : Option (List Nat × List Nat) :=
  if w ≤ s.length then some (s.take w, s.drop w) else none

/-- Model of the signed integer `encode` of `impl_marshall!`: the
two's-complement bit pattern, big endian.  `bits` is 8, 16, 32 or 64. -/
def encInt (bits : Nat) (v : Int) : List Nat :=
  beBytes (bits / 8) (v % ((2 ^ bits : Nat) : Int)).toNat

/-- Model of the signed integer `decode` of `impl_marshall!`. -/
def decInt (bits : Nat) (s : List Nat) : Option (Int × List Nat) :=
  (readBytes (bits / 8) s).map fun p => (toSigned bits (beVal p.1), p.2)

/-- Model of the unsigned integer `encode` of `impl_marshall!` (u8, u64). -/
def encUInt (bits : Nat) (n : Nat) : List Nat := beBytes (bits / 8) n

/-- Model of the unsigned integer `decode` of `impl_marshall!` (u8, u64). -/
def decUInt (bits : Nat) (s : List Nat) : Option (Nat × List Nat) :=
  (readBytes (bits / 8) s).map fun p => (beVal p.1, p.2)

/-- Model of `encode` for f32/f64: the IEEE-754 bit pattern (carried as a
`Nat < 2 ^ bits`) is written big endian; the codec never interprets it. -/
def encFloatBits (bits : Nat) (n : Nat) : List Nat := beBytes (bits / 8) n

/-- Model of `decode` for f32/f64, returning the bit pattern. -/
def decFloatBits (bits : Nat) (s : List Nat) : Option (Nat × List Nat) :=
  (readBytes (bits / 8) s).map fun p => (beVal p.1, p.2)

/-- Model of `encode` for bool: `true` as 1i8, `false` as 0i8. -/
def encodeBool (b : Bool) : List Nat := encInt 8 (if b then 1 else 0)

/-- Model of `decode` for bool: 0 or 1, anything else is InvalidData. -/
def decodeBool (s : List Nat) : Option (Bool × List Nat) := do
  let (v, rest) ← decInt 8 s
  if v = 0 then some (false, rest)
  else if v = 1 then some (true, rest)
  else none

/-- One-byte-at-a-time UTF-8 acceptance automaton (RFC 3629, the table
used by `String::from_utf8`: no overlong forms, no surrogates, at most
U+10FFFF).  State `none` expects a leading byte; `some (lo, hi, k)`
expects a byte in `[lo, hi]` followed by `k` more continuation bytes. -/
def utf8Run : Option (Nat × Nat × Nat) → List Nat → Bool
  | none, [] => true
  | some _, [] => false
  | none, b :: r =>
    if b ≤ 127 then utf8Run none r
    else if 194 ≤ b && b ≤ 223 then utf8Run (some (128, 191, 0)) r
    else if b == 224 then utf8Run (some (160, 191, 1)) r
    else if 225 ≤ b && b ≤ 236 then utf8Run (some (128, 191, 1)) r
    else if b == 237 then utf8Run (some (128, 159, 1)) r
    else if 238 ≤ b && b ≤ 239 then utf8Run (some (128, 191, 1)) r
    else if b == 240 then utf8Run (some (144, 191, 2)) r
    else if 241 ≤ b && b ≤ 243 then utf8Run (some (128, 191, 2)) r
    else if b == 244 then utf8Run (some (128, 143, 2)) r
    else false
  | some (lo, hi, k), b :: r =>
    if lo ≤ b && b ≤ hi then
      match k with
      | 0 => utf8Run none r
      | k + 1 => utf8Run (some (128, 191, k)) r
    else false

/-- UTF-8 validity of a byte list, as checked by `String::from_utf8`. -/
def utf8Valid (l : List Nat) : Bool := utf8Run none l

/-- The length prefix written by `String::encode`: `self.len() as i32 + 1`.
The usize→i32 cast keeps the low 32 bits and the increment wraps, so the
resulting bit pattern is `(len + 1) % 2^32`. -/
def strLenPrefix (s : List Nat) : Int := toSigned 32 ((s.length % W32 + 1) % W32)

/-- Model of `String::encode`: i32 length prefix counting the trailing NUL,
the UTF-8 bytes, a NUL terminator.  A Rust String value is modelled by its
UTF-8 byte sequence. -/
def encodeString (s : List Nat) : List Nat := encInt 32 (strLenPrefix s) ++ s ++ [0]

/-- Model of `String::decode`: reject non-positive lengths (InvalidData),
read `len - 1` bytes, validate UTF-8, require the NUL terminator. -/
def decodeString (s : List Nat) : Option (List Nat × List Nat) := do
  let (len, rest) ← decInt 32 s
  if len ≤ 0 then none
  else
    let n := (len - 1).toNat
    let (buf, rest2) ← readBytes n rest
    if utf8Valid buf then
      match rest2 with
      | 0 :: rest3 => some (buf, rest3)
      | _ :: _ => none
      | [] => none
    else none

/-- Model of `size()` for the fixed-size impls: `size_of` of the type. -/
def sizeInt (bits : Nat) : Nat := bits / 8

/-- Model of `String::size`: `size_of::<i32>() + self.len() + 1`. -/
def sizeString (s : List Nat) : Nat := 4 + s.length + 1

/-- A Marshall implementation together with a HASH constant, as used by the
default methods of the Message trait. -/
structure CodecOn (α : Type) where
  enc : α → List Nat
  dec : List Nat → Option (α × List Nat)
  hash : Nat

/-- Model of `Message::encode_with_hash`: the u64 hash big endian, then the
encoded payload. -/
def encodeWithHash {α : Type} (c : CodecOn α) (m : α) : List Nat :=
  encUInt 64 c.hash ++ c.enc m

/-- Model of `Message::decode_with_hash`: read the u64 hash, reject on
mismatch ("Invalid hash"), then decode the payload. -/
def decodeWithHash {α : Type} (c : CodecOn α) (s : List Nat) : Option (α × List Nat) := do
  let (h, rest) ← decUInt 64 s
  if h = c.hash then c.dec rest else none

/-- A String instance of 2^31 bytes; its encoded length prefix wraps to the
negative i32 `-(2^31 - 1)`. -/
def hugeString : List Nat := List.replicate 2147483648 97

/-! ## Publish path (lcm/src/lcm/providers/udpm.rs, UdpmProvider) -/

/-- Limit `MAX_DATAGRAM_SIZE` of udpm.rs. -/
def MAX_DATAGRAM_SIZE : Nat := 1400

/-- Limit `MAX_MESSAGE_SIZE` of udpm.rs (1 << 28). -/
def MAX_MESSAGE_SIZE : Nat := 268435456

/-- Limit `MAX_CHANNEL_NAME_LENGTH` of udpm.rs. -/
def MAX_CHANNEL_NAME_LENGTH : Nat := 63

/-- Header size `SMALL_HEADER_SIZE` of udpm.rs. -/
def SMALL_HEADER_SIZE : Nat := 8

/-- Header size `FRAG_HEADER_SIZE` of udpm.rs. -/
def FRAG_HEADER_SIZE : Nat := 20

/-- Magic `SHORT_HEADER_MAGIC` of udpm.rs. -/
def SHORT_HEADER_MAGIC : Nat := 0x4c433032

/-- Magic `LONG_HEADER_MAGIC` of udpm.rs. -/
def LONG_HEADER_MAGIC : Nat := 0x4c433033

/-- One iteration of the fragment loop of `send_frag_datagram`: the bytes
written into the 1400-byte buffer are six u32 writes (magic, sequence,
message length, offset, fragment number and fragment count are all written
with `write_u32`), then for fragment 0 the channel and a NUL, then as much
of the remaining message as fits; the datagram sent is the buffer prefix of
length `message_end + amount_written` where `message_end` counts
`FRAG_HEADER_SIZE = 20` bytes of header.  Returns the datagram and
`amount_written`. -/
def fragDatagram (channel message : List Nat) (seq k nFrags offset : Nat) :
    List Nat × Nat :=
  let header := beBytes 4 LONG_HEADER_MAGIC ++ beBytes 4 seq ++
    beBytes 4 message.length ++ beBytes 4 offset ++ beBytes 4 k ++ beBytes 4 nFrags
  let chanPart : List Nat := if k = 0 then channel ++ [0] else []
  let remaining := message.drop offset
  let amount := min (MAX_DATAGRAM_SIZE - header.length - chanPart.length) remaining.length
  let messageEnd := FRAG_HEADER_SIZE + chanPart.length
  ((header ++ chanPart ++ remaining.take amount).take (messageEnd + amount), amount)

/-- The fragment loop of `send_frag_datagram`, building `fuel` datagrams
starting at fragment `k` and message offset `offset`. -/
def fragLoop (channel message : List Nat) (seq nFrags : Nat) :
    Nat → Nat → Nat → List (List Nat)
  | _, _, 0 => []
  | k, offset, fuel + 1 =>
    let p := fragDatagram channel message seq k nFrags offset
    p.1 :: fragLoop channel message seq nFrags (k + 1) (offset + p.2) fuel

/-- Model of `UdpmProvider::send_frag_datagram`: compute the fragment count,
fail with ProviderIssue (`none`) when it exceeds u16::MAX, otherwise send
one datagram per fragment. -/
def sendFragDatagrams (channel message : List Nat) (seq : Nat) :
    Option (List (List Nat)) :=
  let available := MAX_DATAGRAM_SIZE - FRAG_HEADER_SIZE
  let firstAvailable := available - channel.length - 1
  let nFragments := 1 + (message.length + available - firstAvailable) / available
  if nFragments > 65535 then none
  else some (fragLoop channel message seq nFragments 0 0 nFragments)

/-- Model of `UdpmProvider::send_small_datagram`: magic, sequence, channel,
NUL, payload. -/
def smallDatagram (channel message : List Nat) (seq : Nat) : List Nat :=
  beBytes 4 SHORT_HEADER_MAGIC ++ beBytes 4 seq ++ channel ++ [0] ++ message

/-- Result of a publish call. -/
inductive PublishOutcome where
  | ok
  | providerIssue
deriving DecidableEq

/-- Model of `UdpmProvider::publish` applied to the already encoded
(hash-prefixed) buffer: guard the channel length and message size, choose
small or fragmented sending, and on success increment the u32 sequence
number once.  Returns the outcome, the datagrams sent, and the new sequence
number; socket sends are modelled as delivering the whole datagram. -/
def publish (channel messageBuf : List Nat) (seq : Nat) :
    PublishOutcome × List (List Nat) × Nat :=
  if channel.length > MAX_CHANNEL_NAME_LENGTH then (.providerIssue, [], seq)
  else if messageBuf.length > MAX_MESSAGE_SIZE then (.providerIssue, [], seq)
  else
    let available := MAX_DATAGRAM_SIZE - SMALL_HEADER_SIZE - (channel.length + 1)
    if messageBuf.length > available then
      match sendFragDatagrams channel messageBuf seq with
      | none => (.providerIssue, [], seq)
      | some ds => (.ok, ds, (seq + 1) % W32)
    else (.ok, [smallDatagram channel messageBuf seq], (seq + 1) % W32)

/-! ## Reassembly (lcm/src/lcm/providers/udpm.rs, Backend) -/

/-- Model of `NetworkEndian::read_u32(&d[a..a+4])`: `none` models the panic
of slicing past the end of the datagram. -/
def readU32at (d : List Nat) (a : Nat) : Option Nat :=
  if a + 4 ≤ d.length then some (beVal ((d.drop a).take 4)) else none

/-- Model of `NetworkEndian::read_u16(&d[a..a+2])`: `none` models the panic
of slicing past the end of the datagram. -/
def readU16at (d : List Nat) (a : Nat) : Option Nat :=
  if a + 2 ≤ d.length then some (beVal ((d.drop a).take 2)) else none

/-- Model of the `FragmentBuffer` struct of udpm.rs. -/
structure FragmentBuffer where
  partsRemaining : Nat
  sequenceNumber : Nat
  channel : List Nat
  buffer : List Nat
deriving DecidableEq

/-- Model of `Vec::resize(n, pad)`: truncate or pad at the end. -/
def listResize {α : Type} (l : List α) (n : Nat) (pad : α) : List α :=
  if n ≤ l.length then l.take n else l ++ List.replicate (n - l.length) pad

/-- The per-sender reassembly state: the `fragments` HashMap of `Backend`,
keyed by the sender address (modelled as a Nat). -/
abbrev FragMap := List (Nat × FragmentBuffer)

/-- Lookup in the fragments map. -/
def lookupFrag (m : FragMap) (sender : Nat) : Option FragmentBuffer :=
  match m with
  | [] => none
  | (s, fb) :: rest => if s = sender then some fb else lookupFrag rest sender

/-- Update (or insert) the entry of one sender in the fragments map. -/
def updateFrag (m : FragMap) (sender : Nat) (fb : FragmentBuffer) : FragMap :=
  match m with
  | [] => [(sender, fb)]
  | (s, old) :: rest =>
    if s = sender then (s, fb) :: rest else (s, old) :: updateFrag rest sender fb

/-- The reinitialised buffer installed by `process_frag_datagram` when the
stored sequence number or payload size does not match the datagram. -/
def reinitBuffer (fb : FragmentBuffer) (seq size nFrags : Nat) : FragmentBuffer :=
  ⟨nFrags, seq, [], listResize fb.buffer size 0⟩

/-- The buffer after `parts_remaining -= 1` and the
`copy_from_slice` of the fragment payload at the fragment offset. -/
def storeFragment (fb2 : FragmentBuffer) (offset : Nat) (message : List Nat) :
    FragmentBuffer :=
  { fb2 with
    partsRemaining := fb2.partsRemaining - 1,
    buffer := fb2.buffer.take offset ++ message ++
      fb2.buffer.drop (offset + message.length) }

/-- The second half of `Backend::process_frag_datagram`, from the
channel-name handling on: locate the message bytes (fragment 0 carries the
NUL-terminated channel name first; a missing NUL or invalid UTF-8 drops the
datagram, keeping the possibly reinitialised buffer), decrement
`parts_remaining` (`none` models the u16 underflow when it is already 0),
copy the message into the buffer at the fragment offset (`none` models the
out-of-range slice panic of `copy_from_slice`), and forward the completed
message when no parts remain. -/
def applyFragment (frags : FragMap) (sender : Nat) (d : List Nat)
    (offset fragNum : Nat) (fb1 : FragmentBuffer) :
    Option (FragMap × Option (List Nat × List Nat)) :=
  match (if fragNum = 0 then
      match (d.drop FRAG_HEADER_SIZE).findIdx? (fun b => b = 0) with
      | none => none
      | some p =>
        let nameSlice := (d.drop FRAG_HEADER_SIZE).take p
        if utf8Valid nameSlice then
          some (if fb1.channel.isEmpty then { fb1 with channel := nameSlice } else fb1,
                d.drop (FRAG_HEADER_SIZE + p + 1))
        else none
    else some (fb1, d.drop FRAG_HEADER_SIZE) : Option (FragmentBuffer × List Nat)) with
  | none => some (updateFrag frags sender fb1, none)
  | some (fb2, message) =>
    if fb2.partsRemaining = 0 then none
    else if offset + message.length ≤ fb2.buffer.length then
      if (storeFragment fb2 offset message).partsRemaining = 0 then
        some (updateFrag frags sender (storeFragment fb2 offset message),
              some ((storeFragment fb2 offset message).channel,
                    (storeFragment fb2 offset message).buffer))
      else some (updateFrag frags sender (storeFragment fb2 offset message), none)
    else none

/-- Model of `Backend::process_frag_datagram`.  The result is `none` for a
panic: slicing a truncated header, an out-of-range `copy_from_slice`
destination, or the u16 underflow of `parts_remaining -= 1`.  Otherwise it
returns the new fragments map and, when a message completed, the
`(channel, payload)` pair handed to `forward_message`.

Note the source checks `payload_size > MAX_DATAGRAM_SIZE` (not
MAX_MESSAGE_SIZE) and only logs, without returning, so no size rejection
is modelled. -/
def processFragDatagram (frags : FragMap) (sender : Nat) (d : List Nat) :
    Option (FragMap × Option (List Nat × List Nat)) := do
  let seq ← readU32at d 4
  let size ← readU32at d 8
  let offset ← readU32at d 12
  let fragNum ← readU16at d 16
  let nFrags ← readU16at d 18
  let fb0 := (lookupFrag frags sender).getD ⟨0, 0, [], []⟩
  let fb1 := if fb0.sequenceNumber ≠ seq ∨ fb0.buffer.length ≠ size then
    reinitBuffer fb0 seq size nFrags else fb0
  applyFragment frags sender d offset fragNum fb1

/-- A partially filled buffer awaiting one more part of sequence 5 with a
100-byte payload; used to exhibit the out-of-range copy. -/
def stuckBuffer : FragmentBuffer := ⟨2, 5, [65], List.replicate 100 0⟩

/-- A fragment datagram that matches `stuckBuffer`'s sequence number and
payload size, but whose fragment offset (97) plus payload length (10)
exceeds the 100-byte buffer. -/
def oobDatagram : List Nat :=
  [76, 67, 48, 51, 0, 0, 0, 5, 0, 0, 0, 100, 0, 0, 0, 97, 0, 1, 0, 2] ++
    List.replicate 10 3

/-- A buffer whose message already completed: `parts_remaining` is 0. -/
def doneBuffer : FragmentBuffer := ⟨0, 5, [65], List.replicate 100 0⟩

/-- A duplicate fragment datagram matching `doneBuffer`'s sequence number
and payload size (offset 0, five payload bytes). -/
def dupDatagram : List Nat :=
  [76, 67, 48, 51, 0, 0, 0, 5, 0, 0, 0, 100, 0, 0, 0, 0, 0, 1, 0, 2] ++
    List.replicate 5 3

/-! ## Dispatcher (lcm/src/lcm/providers/udpm.rs, forward_message / notify) -/

/-- Result of one trampoline invocation. -/
inductive TrampolineOutcome where
  | accepted
  | msgChannelClosed
  | decodeFailed
deriving DecidableEq

/-- One subscription as held by the Backend: the compiled regex is modelled
by its match predicate on the channel (the source applies `is_match`
directly, without adding anchors), and the boxed trampoline by a function
of the message bytes. -/
structure Subscr where
  isMatch : List Nat → Bool
  tramp : List Nat → TrampolineOutcome

/-- Model of `Backend::forward_message`: `retain` over the subscriptions,
dropping a matching subscription whose trampoline reports the channel
closed, keeping it on a decode error (logged), and marking `forwarded` when
at least one trampoline accepts. -/
def forwardMessage (subs : List Subscr) (channel message : List Nat) :
    List Subscr × Bool :=
  match subs with
  | [] => ([], false)
  | s :: rest =>
    let p := forwardMessage rest channel message
    if s.isMatch channel then
      match s.tramp message with
      | .msgChannelClosed => p
      | .decodeFailed => (s :: p.1, p.2)
      | .accepted => (s :: p.1, true)
    else (s :: p.1, p.2)

/-- State of the capacity-1 notification channel at a `try_send`. -/
inductive NotifyState where
  | ready
  | full
  | disconnected
deriving DecidableEq

/-- Model of `Backend::notify`: Ok and Full count as success, Disconnected
tells the receive thread to exit. -/
def notifyResult : NotifyState → Bool
  | .ready => true
  | .full => true
  | .disconnected => false

/-- A notification token is attempted exactly when the message was
forwarded (`if self.process_datagram(..) && !self.notify() ..`). -/
def notifyAttempted (forwarded : Bool) : Bool := forwarded

/-- Model of the receive-loop continuation condition: the loop breaks only
when the message was forwarded and `notify` reports disconnection. -/
def runStepContinues (forwarded : Bool) (st : NotifyState) : Bool :=
  !(forwarded && !(notifyResult st))

/-! ## SPSC ring (lcm/src/utils/spsc.rs) under the sequential interleaving

The claims exercise the ring with all pushes before all pops on a single
thread.  In that interleaving every `compare_and_swap` compares `head`
against the value just loaded from `head`, so it succeeds; the pop retry
loop returns on its first iteration and the give-up lock is never held.
Counters are usize with `wrapping_add`, modelled as `Nat` with explicit
`% 2 ^ 64`. -/

/-- Modulus of usize counters. -/
def USZ : Nat := 18446744073709551616

/-- Wrapping increment of a usize counter. -/
def wrapInc (n : Nat) : Nat := (n + 1) % USZ

/-- The RingBuffer state: the backing storage (slot `i` holds the value at
offset `i`), the capacity, and the four counters. -/
structure Ring (α : Type) where
  data : Nat → α
  capacity : Nat
  head : Nat
  tail : Nat
  shadowHead : Nat
  shadowTail : Nat

/-- A freshly created ring (`RingBuffer::new`); the uninitialised backing
store is modelled by the default element. -/
def Ring.init (α : Type) [Inhabited α] (cap : Nat) : Ring α :=
  ⟨fun _ => default, cap, 0, 0, 0, 0⟩

/-- Model of `RingBuffer::push` in the sequential interleaving: reload the
shadow head on apparent fullness, evict the oldest slot by advancing `head`
(the CAS succeeds because `head` was just reloaded), then store at
`tail % capacity` and advance `tail`. -/
def Ring.push {α : Type} (r : Ring α) (item : α) : Ring α :=
  let tail := r.tail
  let r1 :=
    if (r.shadowHead + r.capacity) % USZ ≤ tail then
      let sh := r.head
      if (sh + r.capacity) % USZ ≤ tail then
        { r with head := wrapInc sh, shadowHead := wrapInc sh }
      else { r with shadowHead := sh }
    else r
  { r1 with
    data := fun i => if i = tail % r1.capacity then item else r1.data i,
    tail := wrapInc tail }

/-- Model of `RingBuffer::pop` in the sequential interleaving: reload the
shadow tail when `head` has caught up with it, return `none` on a confirmed
empty ring, otherwise load the slot at `head % capacity` and advance `head`
(the CAS succeeds, so the retry loop and give-up path collapse). -/
def Ring.pop {α : Type} (r : Ring α) : Option α × Ring α :=
  let head := r.head
  if head ≥ r.shadowTail then
    let st := r.tail
    if head = st then (none, { r with shadowTail := st })
    else (some (r.data (head % r.capacity)),
          { r with shadowTail := st, head := wrapInc head })
  else (some (r.data (head % r.capacity)), { r with head := wrapInc head })

/-- Push a whole list of items, in order. -/
def Ring.pushAll {α : Type} (r : Ring α) (items : List α) : Ring α :=
  items.foldl Ring.push r

/-- Pop `count` times, collecting the results in order. -/
def Ring.drain {α : Type} (r : Ring α) : Nat → List (Option α)
  | 0 => []
  | count + 1 =>
    let p := r.pop
    p.1 :: p.2.drain count

/-! ## Theorems -/

theorem hashField_renameUserTypes (g : List Nat → List Nat) (v : Nat) (f : Field) :
    hashField v (Field.renameUserTypes g f) = hashField v f := by
  cases f with
  | mk name bt dims =>
    cases bt <;>
      simp [hashField, Field.renameUserTypes, renameUser, Ty.isPrimitiveType, Ty.asStr]

theorem calculateHash_renameUserTypes (fields : List Field) (g : List Nat → List Nat) :
    calculateHash (fields.map (Field.renameUserTypes g)) = calculateHash fields := by
  unfold calculateHash
  generalize (305419896 : Nat) = v
  induction fields generalizing v with
  | nil => rfl
  | cons f fs ih => simp [List.foldl_cons, hashField_renameUserTypes, ih]

set_option maxRecDepth 400000 in
/-- C2: the compile-time 64-bit type hash folds hash_byte/hash_string over
each field's name, the primitive tag only for primitive types (user-type
names never enter the fold, so renaming them leaves the hash unchanged),
the dimension count and each dimension's mode byte and text, then adds
referenced record hashes and rotates left by one bit; the golden values
hold for the five test records. -/
theorem type_hash_spec :
    (∀ (fields : List Field) (g : List Nat → List Nat),
        calculateHash (fields.map (Field.renameUserTypes g)) = calculateHash fields)
    ∧ messageHash temperatureFields [] = 0xa07fa3d64cbea6ea
    ∧ messageHash point2dListFields [] = 0x4f85d1e7da2fc594
    ∧ messageHash ([] : List Field) [] = 0x000000002468acf0
    ∧ messageHash myStructFields [] = 0x4fab8e09620e9ec9
    ∧ messageHash memberGroupFields [] = 0xae7e5fba5eeca11e :=
  ⟨calculateHash_renameUserTypes, by decide, by decide, by decide, by decide, by decide⟩

/-- C8: for a complete message, every subscription whose regex matches the
channel has its trampoline invoked; a trampoline reporting the closed
channel is removed at that moment, a decode error keeps the subscription,
the forwarded flag (and hence the notification attempt) is set exactly when
some trampoline accepted, and the notification outcomes Ok and Full are
successes while Disconnected stops the receive thread. -/
theorem dispatcher_spec :
    (∀ (subs : List Subscr) (channel message : List Nat),
        (forwardMessage subs channel message).1
          = subs.filter (fun s =>
              !(s.isMatch channel && decide (s.tramp message = .msgChannelClosed)))
      ∧ (forwardMessage subs channel message).2
          = subs.any (fun s =>
              s.isMatch channel && decide (s.tramp message = .accepted)))
    ∧ notifyResult .ready = true
    ∧ notifyResult .full = true
    ∧ notifyResult .disconnected = false
    ∧ (∀ (subs : List Subscr) (channel message : List Nat),
        notifyAttempted (forwardMessage subs channel message).2
          = subs.any (fun s =>
              s.isMatch channel && decide (s.tramp message = .accepted)))
    ∧ (∀ (forwarded : Bool), runStepContinues forwarded .disconnected = !forwarded)
    ∧ (∀ (forwarded : Bool) (st : NotifyState),
        st ≠ .disconnected → runStepContinues forwarded st = true) := by
  have main : ∀ (subs : List Subscr) (channel message : List Nat),
      (forwardMessage subs channel message).1
        = subs.filter (fun s =>
            !(s.isMatch channel && decide (s.tramp message = .msgChannelClosed)))
    ∧ (forwardMessage subs channel message).2
        = subs.any (fun s =>
            s.isMatch channel && decide (s.tramp message = .accepted)) := by
    intro subs channel message
    induction subs with
    | nil => exact ⟨rfl, rfl⟩
    | cons s rest ih =>
      by_cases hm : s.isMatch channel
      · cases ht : s.tramp message <;>
          simp [forwardMessage, hm, ht, ih.1, ih.2]
      · simp [forwardMessage, hm, ih.1, ih.2]
  refine ⟨fun subs c m => ⟨(main subs c m).1, (main subs c m).2⟩, rfl, rfl, rfl,
    fun subs c m => (main subs c m).2, fun f => by cases f <;> rfl,
    fun f st h => ?_⟩
  cases st <;> simp_all [runStepContinues, notifyResult]

/-- C5: publish fails with ProviderIssue when the channel name exceeds 63
bytes or the hash-prefixed buffer exceeds 2^28 bytes, sending nothing and
leaving the sequence number unchanged; every successful publish increments
the u32 sequence number exactly once. -/
theorem publish_guards_spec :
    (∀ (channel buf : List Nat) (seq : Nat),
        channel.length > 63 ∨ buf.length > 268435456 →
        publish channel buf seq = (.providerIssue, [], seq))
    ∧ (∀ (channel buf : List Nat) (seq : Nat),
        (publish channel buf seq).1 = .ok →
        (publish channel buf seq).2.2 = (seq + 1) % W32) := by
  constructor
  · intro c b s h
    rcases h with h | h
    · simp [publish, MAX_CHANNEL_NAME_LENGTH, h]
    · by_cases hc : c.length > 63
      · simp [publish, MAX_CHANNEL_NAME_LENGTH, hc]
      · simp only [publish, MAX_CHANNEL_NAME_LENGTH, MAX_MESSAGE_SIZE]
        rw [if_neg (by omega), if_pos (by omega)]
  · intro c b s h
    unfold publish at h ⊢
    by_cases h1 : c.length > MAX_CHANNEL_NAME_LENGTH
    · simp [h1] at h
    · by_cases h2 : b.length > MAX_MESSAGE_SIZE
      · simp [h1, h2] at h
      · simp only [if_neg h1, if_neg h2] at h ⊢
        by_cases h3 : b.length > MAX_DATAGRAM_SIZE - SMALL_HEADER_SIZE - (c.length + 1)
        · simp only [if_pos h3] at h ⊢
          cases hs : sendFragDatagrams c b s <;> simp [hs] at h ⊢
        · simp [if_neg h3] at h ⊢

theorem publish_guards_spec_witness :
    publish (List.replicate 64 65) [1] 0 = (.providerIssue, [], 0) :=
  publish_guards_spec.1 _ _ _ (Or.inl (by simp))

theorem beBytes_length (w n : Nat) : (beBytes w n).length = w := by
  induction w generalizing n with
  | zero => rfl
  | succ w ih => simp [beBytes, ih]

theorem beVal_aux (w : Nat) : ∀ (n acc : Nat),
    (beBytes w n).foldl (fun a b => a * 256 + b) acc = acc * 256 ^ w + n % 256 ^ w := by
  induction w with
  | zero => intro n acc; simp [beBytes, Nat.mod_one]
  | succ w ih =>
    intro n acc
    rw [beBytes, List.foldl_cons, ih]
    have h : n % 256 ^ (w + 1) = n % 256 ^ w + 256 ^ w * (n / 256 ^ w % 256) := by
      rw [pow_succ]
      exact Nat.mod_mul
    rw [h]; ring

theorem beVal_beBytes (w n : Nat) : beVal (beBytes w n) = n % 256 ^ w := by
  simpa using beVal_aux w n 0

theorem readBytes_append {w : Nat} (l rest : List Nat) (h : l.length = w) :
    readBytes w (l ++ rest) = some (l, rest) := by
  subst h
  simp [readBytes, List.take_left, List.drop_left]

theorem pow256_div8 {bits : Nat} (h8 : 8 * (bits / 8) = bits) :
    256 ^ (bits / 8) = 2 ^ bits := by
  have h : (256 : Nat) = 2 ^ 8 := rfl
  rw [h, ← pow_mul, h8]

theorem toSigned_emod (bits : Nat) (hpos : 0 < bits) (v : Int)
    (hlo : -((2 : Int) ^ (bits - 1)) ≤ v) (hhi : v < (2 : Int) ^ (bits - 1)) :
    toSigned bits (v % (2 : Int) ^ bits).toNat = v := by
  have hsplit : (2 : Int) ^ bits = 2 * (2 : Int) ^ (bits - 1) := by
    conv_lhs => rw [show bits = (bits - 1) + 1 by omega]
    rw [pow_succ]; ring
  have hpow_pos : (0 : Int) < (2 : Int) ^ bits := by positivity
  have hv : 0 ≤ v % (2 : Int) ^ bits := Int.emod_nonneg v (by positivity)
  have hvlt : v % (2 : Int) ^ bits < (2 : Int) ^ bits := Int.emod_lt_of_pos v hpow_pos
  have hcast : (((v % (2 : Int) ^ bits).toNat : Nat) : Int) = v % (2 : Int) ^ bits :=
    Int.toNat_of_nonneg hv
  have hval : v % (2 : Int) ^ bits = v ∨ v % (2 : Int) ^ bits = v + (2 : Int) ^ bits := by
    rcases le_or_lt 0 v with h | h
    · left; exact Int.emod_eq_of_lt h (by linarith)
    · right
      have h1 : (v + (2 : Int) ^ bits * 1) % (2 : Int) ^ bits = v % (2 : Int) ^ bits :=
        Int.add_mul_emod_self_left v ((2 : Int) ^ bits) 1
      rw [mul_one] at h1
      rw [← h1]
      exact Int.emod_eq_of_lt (by linarith) (by linarith)
  have hcast2 : ((2 ^ bits : Nat) : Int) = (2 : Int) ^ bits := by push_cast; ring
  have hcast1 : ((2 ^ (bits - 1) : Nat) : Int) = (2 : Int) ^ (bits - 1) := by push_cast; ring
  unfold toSigned
  split
  next hlt =>
    have hlt2 : ((v % (2 : Int) ^ bits).toNat : Int) < (2 : Int) ^ (bits - 1) := by
      rw [← hcast1]; exact_mod_cast hlt
    rcases hval with h | h <;> omega
  next hlt =>
    have hlt2 : ¬ ((v % (2 : Int) ^ bits).toNat : Int) < (2 : Int) ^ (bits - 1) := by
      rw [← hcast1]; exact_mod_cast hlt
    rw [hcast2]
    rcases hval with h | h <;> omega

theorem decInt_encInt (bits : Nat) (v : Int) (rest : List Nat)
    (h8 : 8 * (bits / 8) = bits) (hpos : 0 < bits)
    (hlo : -((2 : Int) ^ (bits - 1)) ≤ v) (hhi : v < (2 : Int) ^ (bits - 1)) :
    decInt bits (encInt bits v ++ rest) = some (v, rest) := by
  have hcast2 : ((2 ^ bits : Nat) : Int) = (2 : Int) ^ bits := by push_cast; ring
  unfold decInt encInt
  simp only [hcast2]
  rw [readBytes_append _ _ (beBytes_length _ _)]
  have hmlt : (v % (2 : Int) ^ bits).toNat < 2 ^ bits := by
    have hpow_pos : (0 : Int) < (2 : Int) ^ bits := by positivity
    have h1 := Int.emod_lt_of_pos v hpow_pos
    have h2 := Int.emod_nonneg v (ne_of_gt hpow_pos)
    omega
  rw [Option.map_some']
  rw [beVal_beBytes, pow256_div8 h8, Nat.mod_eq_of_lt hmlt,
    toSigned_emod bits hpos v hlo hhi]

theorem encInt_length (bits : Nat) (v : Int) : (encInt bits v).length = bits / 8 := by
  unfold encInt; exact beBytes_length _ _

theorem decodeBool_encodeBool (b : Bool) (rest : List Nat) :
    decodeBool (encodeBool b ++ rest) = some (b, rest) := by
  unfold decodeBool encodeBool
  rw [decInt_encInt 8 _ rest (by norm_num) (by norm_num)
    (by cases b <;> norm_num) (by cases b <;> norm_num)]
  cases b <;> simp

theorem decUInt_encUInt (bits : Nat) (n : Nat) (rest : List Nat)
    (h8 : 8 * (bits / 8) = bits) (hn : n < 2 ^ bits) :
    decUInt bits (encUInt bits n ++ rest) = some (n, rest) := by
  unfold decUInt encUInt
  rw [readBytes_append _ _ (beBytes_length _ _), Option.map_some']
  rw [beVal_beBytes, pow256_div8 h8, Nat.mod_eq_of_lt hn]

theorem decFloatBits_encFloatBits (bits : Nat) (n : Nat) (rest : List Nat)
    (h8 : 8 * (bits / 8) = bits) (hn : n < 2 ^ bits) :
    decFloatBits bits (encFloatBits bits n ++ rest) = some (n, rest) := by
  unfold decFloatBits encFloatBits
  rw [readBytes_append _ _ (beBytes_length _ _), Option.map_some']
  rw [beVal_beBytes, pow256_div8 h8, Nat.mod_eq_of_lt hn]

theorem strLenPrefix_small (s : List Nat) (hlen : s.length ≤ 2147483646) :
    strLenPrefix s = (s.length : Int) + 1 := by
  unfold strLenPrefix toSigned W32
  rw [Nat.mod_eq_of_lt (by omega), Nat.mod_eq_of_lt (by omega), if_pos (by norm_num; omega)]
  push_cast; ring

theorem decodeString_encodeString (s rest : List Nat)
    (hval : utf8Valid s = true) (hlen : s.length ≤ 2147483646) :
    decodeString (encodeString s ++ rest) = some (s, rest) := by
  unfold decodeString encodeString
  rw [strLenPrefix_small s hlen, List.append_assoc, List.append_assoc]
  rw [decInt_encInt 32 _ _ (by norm_num) (by norm_num)
    (by have h0 : (0 : Int) ≤ (s.length : Int) := Int.natCast_nonneg _
        norm_num; omega)
    (by norm_num; omega)]
  simp only [Option.bind_eq_bind, Option.some_bind]
  rw [if_neg (by omega)]
  have h1 : ((s.length : Int) + 1 - 1).toNat = s.length := by omega
  simp only [List.singleton_append] at *
  rw [h1, readBytes_append s (0 :: rest) rfl, Option.some_bind]
  simp [hval]

theorem encodeString_length (s : List Nat) :
    (encodeString s).length = sizeString s := by
  unfold encodeString sizeString
  simp [encInt_length]
  omega

theorem decodeWithHash_encodeWithHash {α : Type} (c : CodecOn α) (m : α) (rest : List Nat)
    (hrt : ∀ (x : α) (r : List Nat), c.dec (c.enc x ++ r) = some (x, r))
    (hh : c.hash < W64) :
    decodeWithHash c (encodeWithHash c m ++ rest) = some (m, rest) := by
  unfold decodeWithHash encodeWithHash
  rw [List.append_assoc]
  rw [show decUInt 64 (encUInt 64 c.hash ++ (c.enc m ++ rest))
      = some (c.hash, c.enc m ++ rest) from
    decUInt_encUInt 64 c.hash _ (by norm_num) (by unfold W64 at hh; exact_mod_cast hh)]
  simp [hrt]

theorem utf8Valid_replicate97 (n : Nat) : utf8Valid (List.replicate n 97) = true := by
  induction n with
  | zero => rfl
  | succ n ih =>
    rw [List.replicate_succ]
    exact ih


/-- C1 (amended): decoding an encoding reproduces the value for every
Marshall impl of message.rs — i8/i16/i32/i64 over their value ranges, bool,
u8/u64, the f32/f64 bit patterns — and for String of byte length at most
2^31 − 2; the byte length of every encoding equals `size()`
(unconditionally, Strings included); and the hash-prefixed Message
round-trip holds for every codec whose plain round-trip holds. -/
theorem marshall_roundtrip_amended :
    (∀ (v : Int) (rest : List Nat), -128 ≤ v → v < 128 →
        decInt 8 (encInt 8 v ++ rest) = some (v, rest))
    ∧ (∀ (v : Int) (rest : List Nat), -32768 ≤ v → v < 32768 →
        decInt 16 (encInt 16 v ++ rest) = some (v, rest))
    ∧ (∀ (v : Int) (rest : List Nat), -2147483648 ≤ v → v < 2147483648 →
        decInt 32 (encInt 32 v ++ rest) = some (v, rest))
    ∧ (∀ (v : Int) (rest : List Nat),
        -9223372036854775808 ≤ v → v < 9223372036854775808 →
        decInt 64 (encInt 64 v ++ rest) = some (v, rest))
    ∧ (∀ (b : Bool) (rest : List Nat), decodeBool (encodeBool b ++ rest) = some (b, rest))
    ∧ (∀ (n : Nat) (rest : List Nat), n < 256 →
        decUInt 8 (encUInt 8 n ++ rest) = some (n, rest))
    ∧ (∀ (n : Nat) (rest : List Nat), n < 18446744073709551616 →
        decUInt 64 (encUInt 64 n ++ rest) = some (n, rest))
    ∧ (∀ (n : Nat) (rest : List Nat), n < 4294967296 →
        decFloatBits 32 (encFloatBits 32 n ++ rest) = some (n, rest))
    ∧ (∀ (n : Nat) (rest : List Nat), n < 18446744073709551616 →
        decFloatBits 64 (encFloatBits 64 n ++ rest) = some (n, rest))
    ∧ (∀ (s rest : List Nat), utf8Valid s = true → s.length ≤ 2147483646 →
        decodeString (encodeString s ++ rest) = some (s, rest))
    ∧ (∀ (bits : Nat) (v : Int), (encInt bits v).length = sizeInt bits)
    ∧ (∀ (b : Bool), (encodeBool b).length = sizeInt 8)
    ∧ (∀ (s : List Nat), (encodeString s).length = sizeString s)
    ∧ (∀ (α : Type) (c : CodecOn α) (m : α) (rest : List Nat),
        (∀ (x : α) (r : List Nat), c.dec (c.enc x ++ r) = some (x, r)) →
        c.hash < W64 →
        decodeWithHash c (encodeWithHash c m ++ rest) = some (m, rest)) := by
  refine ⟨?_, ?_, ?_, ?_, decodeBool_encodeBool, ?_, ?_, ?_, ?_,
    decodeString_encodeString, fun bits v => encInt_length bits v, ?_,
    encodeString_length,
    fun α c m rest h1 h2 => decodeWithHash_encodeWithHash c m rest h1 h2⟩
  · intro v rest h1 h2
    exact decInt_encInt 8 v rest (by norm_num) (by norm_num)
      (by norm_num; linarith) (by norm_num; linarith)
  · intro v rest h1 h2
    exact decInt_encInt 16 v rest (by norm_num) (by norm_num)
      (by norm_num; linarith) (by norm_num; linarith)
  · intro v rest h1 h2
    exact decInt_encInt 32 v rest (by norm_num) (by norm_num)
      (by norm_num; linarith) (by norm_num; linarith)
  · intro v rest h1 h2
    exact decInt_encInt 64 v rest (by norm_num) (by norm_num)
      (by norm_num; linarith) (by norm_num; linarith)
  · intro n rest h
    exact decUInt_encUInt 8 n rest (by norm_num) (by norm_num; linarith)
  · intro n rest h
    exact decUInt_encUInt 64 n rest (by norm_num) (by norm_num; linarith)
  · intro n rest h
    exact decFloatBits_encFloatBits 32 n rest (by norm_num) (by norm_num; linarith)
  · intro n rest h
    exact decFloatBits_encFloatBits 64 n rest (by norm_num) (by norm_num; linarith)
  · intro b
    unfold encodeBool
    exact encInt_length 8 _

theorem decodeString_encodeString_huge (s : List Nat)
    (hlen : s.length = 2147483648) :
    decodeString (encodeString s) = none := by
  unfold encodeString decodeString
  have hpre : strLenPrefix s = -2147483647 := by
    unfold strLenPrefix toSigned W32
    rw [hlen]
    norm_num
  rw [hpre, List.append_assoc]
  rw [decInt_encInt 32 _ _ (by norm_num) (by norm_num) (by norm_num) (by norm_num)]
  simp

/-- C1 fails as stated: the 2^31-byte string (a valid Rust String of ASCII
97s) encodes with a wrapped, negative i32 length prefix, so decoding the
encoding yields an error rather than the value. -/
theorem marshall_string_counterexample :
    utf8Valid hugeString = true
    ∧ decodeString (encodeString hugeString) = none :=
  ⟨utf8Valid_replicate97 _,
   decodeString_encodeString_huge _ (List.length_replicate _ _)⟩

/-- Witness: the amended round-trip applied at concrete inputs. -/
theorem marshall_roundtrip_amended_witness :
    decInt 32 (encInt 32 (-5) ++ [9]) = some (-5, [9])
    ∧ decodeString (encodeString [104, 105] ++ [7]) = some ([104, 105], [7]) :=
  ⟨marshall_roundtrip_amended.2.2.1 (-5) [9] (by norm_num) (by norm_num),
   marshall_roundtrip_amended.2.2.2.2.2.2.2.2.2.1 [104, 105] [7] (by decide) (by decide)⟩

theorem listResize_length {α : Type} (l : List α) (n : Nat) (pad : α) :
    (listResize l n pad).length = n := by
  unfold listResize
  split
  · rename_i h
    simp
    omega
  · rename_i h
    simp
    omega

theorem updateFrag_updateFrag (m : FragMap) (s : Nat) (x y : FragmentBuffer) :
    updateFrag (updateFrag m s x) s y = updateFrag m s y := by
  induction m with
  | nil => simp [updateFrag]
  | cons p rest ih =>
    obtain ⟨ps, pfb⟩ := p
    by_cases h : ps = s
    · simp [updateFrag, h]
    · simp [updateFrag, h, ih]

theorem lookupFrag_updateFrag_self (m : FragMap) (s : Nat) (fb : FragmentBuffer) :
    lookupFrag (updateFrag m s fb) s = some fb := by
  induction m with
  | nil => simp [updateFrag, lookupFrag]
  | cons p rest ih =>
    obtain ⟨ps, pfb⟩ := p
    by_cases h : ps = s
    · simp [updateFrag, lookupFrag, h]
    · simp [updateFrag, lookupFrag, h, ih]

theorem lookupFrag_updateFrag_other (m : FragMap) (s s2 : Nat) (fb : FragmentBuffer)
    (h : s2 ≠ s) :
    lookupFrag (updateFrag m s fb) s2 = lookupFrag m s2 := by
  have hns : ¬ s = s2 := fun hh => h hh.symm
  induction m with
  | nil => simp only [updateFrag, lookupFrag, if_neg hns]
  | cons p rest ih =>
    obtain ⟨ps, pfb⟩ := p
    by_cases hp : ps = s
    · subst hp
      simp only [updateFrag, if_pos rfl, lookupFrag, if_neg hns]
    · simp only [updateFrag, if_neg hp, lookupFrag, ih]

theorem applyFragment_update (m : FragMap) (s : Nat) (r : FragmentBuffer)
    (d : List Nat) (off fn : Nat) (fb1 : FragmentBuffer) :
    applyFragment (updateFrag m s r) s d off fn fb1 = applyFragment m s d off fn fb1 := by
  simp only [applyFragment, updateFrag_updateFrag]

theorem applyFragment_other_senders (m : FragMap) (s : Nat) (d : List Nat)
    (off fn : Nat) (fb1 : FragmentBuffer)
    (res : FragMap × Option (List Nat × List Nat))
    (h : applyFragment m s d off fn fb1 = some res) :
    ∀ s2, s2 ≠ s → lookupFrag res.1 s2 = lookupFrag m s2 := by
  intro s2 hs2
  unfold applyFragment at h
  split at h
  · rcases Option.some_inj.mp h with rfl
    exact lookupFrag_updateFrag_other m s s2 _ hs2
  · split at h
    · exact absurd h (by simp)
    · split at h
      · split at h <;>
        · rcases Option.some_inj.mp h with rfl
          exact lookupFrag_updateFrag_other m s s2 _ hs2
      · exact absurd h (by simp)

theorem processFragDatagram_eq (m : FragMap) (sender : Nat) (d : List Nat)
    (seq size off fn cnt : Nat)
    (h4 : readU32at d 4 = some seq) (h8 : readU32at d 8 = some size)
    (h12 : readU32at d 12 = some off) (h16 : readU16at d 16 = some fn)
    (h18 : readU16at d 18 = some cnt) :
    processFragDatagram m sender d
      = applyFragment m sender d off fn
          (if ((lookupFrag m sender).getD ⟨0, 0, [], []⟩).sequenceNumber ≠ seq
              ∨ ((lookupFrag m sender).getD ⟨0, 0, [], []⟩).buffer.length ≠ size
           then reinitBuffer ((lookupFrag m sender).getD ⟨0, 0, [], []⟩) seq size cnt
           else (lookupFrag m sender).getD ⟨0, 0, [], []⟩) := by
  unfold processFragDatagram
  rw [h4, h8, h12, h16, h18]
  simp only [Option.bind_eq_bind, Option.some_bind]

theorem readU16at_length {d : List Nat} {a n : Nat} (h : readU16at d a = some n) :
    a + 2 ≤ d.length := by
  unfold readU16at at h
  by_cases hle : a + 2 ≤ d.length
  · exact hle
  · rw [if_neg hle] at h; cases h

/-- C7: a fragment whose sequence number or payload size disagrees with the
sender's stored FragmentBuffer is processed exactly as if that buffer had
first been re-initialised — parts_remaining set to the datagram's fragment
count, sequence number replaced, channel cleared, byte buffer resized to
the datagram's payload_size — and processing a datagram from one sender
never changes another sender's buffer, so each sender holds at most one
in-flight message. -/
theorem frag_reinit_spec
    (m : FragMap) (sender : Nat) (d : List Nat) (fb : FragmentBuffer)
    (seq size nFrags : Nat)
    (hlook : lookupFrag m sender = some fb)
    (hseq : readU32at d 4 = some seq)
    (hsize : readU32at d 8 = some size)
    (hcnt : readU16at d 18 = some nFrags)
    (hmis : fb.sequenceNumber ≠ seq ∨ fb.buffer.length ≠ size) :
    processFragDatagram m sender d
      = processFragDatagram (updateFrag m sender (reinitBuffer fb seq size nFrags)) sender d
    ∧ reinitBuffer fb seq size nFrags
        = ⟨nFrags, seq, [], listResize fb.buffer size 0⟩
    ∧ (reinitBuffer fb seq size nFrags).buffer.length = size
    ∧ (reinitBuffer fb seq size nFrags).channel = []
    ∧ ∀ (res : FragMap × Option (List Nat × List Nat)),
        processFragDatagram m sender d = some res →
        ∀ s2, s2 ≠ sender → lookupFrag res.1 s2 = lookupFrag m s2 := by
  have hd : 20 ≤ d.length := readU16at_length hcnt
  have h12 : readU32at d 12 = some (beVal ((d.drop 12).take 4)) := by
    unfold readU32at; rw [if_pos (by omega)]
  have h16 : readU16at d 16 = some (beVal ((d.drop 16).take 2)) := by
    unfold readU16at; rw [if_pos (by omega)]
  have hL := processFragDatagram_eq m sender d seq size _ _ nFrags
    hseq hsize h12 h16 hcnt
  have hR := processFragDatagram_eq (updateFrag m sender (reinitBuffer fb seq size nFrags))
    sender d seq size _ _ nFrags hseq hsize h12 h16 hcnt
  rw [hlook] at hL
  rw [lookupFrag_updateFrag_self] at hR
  simp only [Option.getD_some] at hL hR
  rw [if_pos hmis] at hL
  rw [if_neg (by
    push_neg
    refine ⟨rfl, ?_⟩
    exact listResize_length _ _ _)] at hR
  refine ⟨?_, rfl, listResize_length _ _ _, rfl, ?_⟩
  · rw [hL, hR, applyFragment_update]
  · intro res hres s2 hs2
    rw [hL] at hres
    exact applyFragment_other_senders m sender d _ _ _ res hres s2 hs2

theorem frag_reinit_spec_witness :
    processFragDatagram [(1, ⟨1, 7, [65], List.replicate 30 1⟩)] 1
        ([76, 67, 48, 51, 0, 0, 0, 8, 0, 0, 0, 50, 0, 0, 0, 0, 0, 1, 0, 2] ++
          List.replicate 10 9)
      = processFragDatagram
          (updateFrag [(1, ⟨1, 7, [65], List.replicate 30 1⟩)] 1
            (reinitBuffer ⟨1, 7, [65], List.replicate 30 1⟩ 8 50 2)) 1
          ([76, 67, 48, 51, 0, 0, 0, 8, 0, 0, 0, 50, 0, 0, 0, 0, 0, 1, 0, 2] ++
            List.replicate 10 9)
    ∧ reinitBuffer ⟨1, 7, [65], List.replicate 30 1⟩ 8 50 2
        = ⟨2, 8, [], listResize (List.replicate 30 1) 50 0⟩ := by
  have h := frag_reinit_spec [(1, ⟨1, 7, [65], List.replicate 30 1⟩)] 1
    ([76, 67, 48, 51, 0, 0, 0, 8, 0, 0, 0, 50, 0, 0, 0, 0, 0, 1, 0, 2] ++
      List.replicate 10 9)
    ⟨1, 7, [65], List.replicate 30 1⟩ 8 50 2
    (by decide) (by decide) (by decide) (by decide) (by decide)
  exact ⟨h.1, h.2.1⟩

theorem applyFragment_isSome (m : FragMap) (s : Nat) (d : List Nat)
    (off fn : Nat) (fb : FragmentBuffer)
    (hparts : 0 < fb.partsRemaining)
    (hbound : off + (d.length - FRAG_HEADER_SIZE) ≤ fb.buffer.length) :
    (applyFragment m s d off fn fb).isSome = true := by
  unfold applyFragment
  by_cases hfn : fn = 0
  · rw [if_pos hfn]
    cases hfind : (d.drop FRAG_HEADER_SIZE).findIdx? (fun b => decide (b = 0)) with
    | none =>
      simp
    | some p =>
      dsimp only
      by_cases hu : utf8Valid ((d.drop FRAG_HEADER_SIZE).take p) = true
      · rw [if_pos hu]
        dsimp only
        have hmsg : (d.drop (FRAG_HEADER_SIZE + p + 1)).length ≤
            d.length - FRAG_HEADER_SIZE := by
          rw [List.length_drop]
          omega
        by_cases hch : fb.channel.isEmpty
        · rw [if_pos hch]
          rw [if_neg (by simp [storeFragment]; omega), if_pos (by simp [storeFragment]; omega)]
          split <;> simp
        · rw [if_neg hch]
          rw [if_neg (by omega), if_pos (by omega)]
          split <;> simp
      · rw [if_neg hu]
        simp
  · rw [if_neg hfn]
    dsimp only
    have hmsg : (d.drop FRAG_HEADER_SIZE).length ≤ d.length - FRAG_HEADER_SIZE := by
      rw [List.length_drop]
    rw [if_neg (by omega), if_pos (by omega)]
    split <;> simp

/-- C10 (amended): processing a matching fragment datagram of at least 20
bytes does not panic provided the sender's buffer still awaits parts
(parts_remaining positive) and the fragment offset plus the fragment's
payload length stays within payload_size; without those two bounds the
copy or the decrement can panic. -/
theorem frag_nopanic_amended
    (m : FragMap) (sender : Nat) (d : List Nat) (fb : FragmentBuffer)
    (seq size off : Nat)
    (hlook : lookupFrag m sender = some fb)
    (h4 : readU32at d 4 = some seq) (h8 : readU32at d 8 = some size)
    (h12 : readU32at d 12 = some off)
    (hd : 20 ≤ d.length)
    (hseq : fb.sequenceNumber = seq) (hsize : fb.buffer.length = size)
    (hparts : 0 < fb.partsRemaining)
    (hbound : off + (d.length - 20) ≤ size) :
    (processFragDatagram m sender d).isSome = true := by
  have h16 : readU16at d 16 = some (beVal ((d.drop 16).take 2)) := by
    unfold readU16at; rw [if_pos (by omega)]
  have h18 : readU16at d 18 = some (beVal ((d.drop 18).take 2)) := by
    unfold readU16at; rw [if_pos (by omega)]
  rw [processFragDatagram_eq m sender d seq size off _ _ h4 h8 h12 h16 h18, hlook]
  simp only [Option.getD_some]
  rw [if_neg (by push_neg; exact ⟨hseq, hsize⟩)]
  exact applyFragment_isSome m sender d off _ fb hparts
    (by unfold FRAG_HEADER_SIZE; omega)

/-- C10 fails as stated: with a matching sequence number and payload size,
a wire fragment_offset of 97 with a 10-byte fragment payload overruns the
100-byte buffer (the copy_from_slice panics), and a duplicate fragment
arriving after the message completed decrements parts_remaining past
zero. -/
theorem frag_copy_counterexample :
    stuckBuffer.sequenceNumber = 5 ∧ stuckBuffer.buffer.length = 100
    ∧ oobDatagram.length = 30
    ∧ processFragDatagram [(0, stuckBuffer)] 0 oobDatagram = none
    ∧ doneBuffer.partsRemaining = 0
    ∧ processFragDatagram [(0, doneBuffer)] 0 dupDatagram = none := by
  refine ⟨rfl, by decide, by decide, by decide, rfl, by decide⟩

theorem frag_nopanic_amended_witness :
    (processFragDatagram [(1, ⟨2, 5, [65], List.replicate 30 0⟩)] 1
        ([76, 67, 48, 51, 0, 0, 0, 5, 0, 0, 0, 30, 0, 0, 0, 0, 0, 1, 0, 2] ++
          List.replicate 5 9)).isSome = true := by
  exact frag_nopanic_amended _ 1 _ ⟨2, 5, [65], List.replicate 30 0⟩ 5 30 0
    (by decide) (by decide) (by decide) (by decide) (by decide)
    (by decide) (by decide) (by decide) (by decide)

set_option maxRecDepth 100000 in
/-- C6 fails on the code: a fragment-magic datagram shorter than the
20-byte fragment header panics the receive thread (the header slicing has
no length guard), and an in-range header whose payload_size exceeds
MAX_MESSAGE_SIZE is not rejected — the source compares payload_size
against MAX_DATAGRAM_SIZE and, even then, only logs without dropping, so
the reassembly state is resized to the oversized payload. -/
theorem frag_reject_bug :
    processFragDatagram [] 0 [76, 67, 48, 51] = none
    ∧ processFragDatagram [] 0
        [76, 67, 48, 51, 0, 0, 0, 9, 16, 0, 0, 1, 0, 0, 0, 0, 0, 1, 0, 5]
      = some ([(0, ⟨4, 9, [], List.replicate 268435457 0⟩)], none)
    ∧ 268435457 > MAX_MESSAGE_SIZE := by
  refine ⟨rfl, ?_, by norm_num [MAX_MESSAGE_SIZE]⟩
  have h4 : readU32at [76, 67, 48, 51, 0, 0, 0, 9, 16, 0, 0, 1, 0, 0, 0, 0, 0, 1, 0, 5] 4
      = some 9 := by decide
  have h8 : readU32at [76, 67, 48, 51, 0, 0, 0, 9, 16, 0, 0, 1, 0, 0, 0, 0, 0, 1, 0, 5] 8
      = some 268435457 := by decide
  have h12 : readU32at [76, 67, 48, 51, 0, 0, 0, 9, 16, 0, 0, 1, 0, 0, 0, 0, 0, 1, 0, 5] 12
      = some 0 := by decide
  have h16 : readU16at [76, 67, 48, 51, 0, 0, 0, 9, 16, 0, 0, 1, 0, 0, 0, 0, 0, 1, 0, 5] 16
      = some 1 := by decide
  have h18 : readU16at [76, 67, 48, 51, 0, 0, 0, 9, 16, 0, 0, 1, 0, 0, 0, 0, 0, 1, 0, 5] 18
      = some 5 := by decide
  rw [processFragDatagram_eq _ _ _ 9 268435457 0 1 5 h4 h8 h12 h16 h18]
  rw [show lookupFrag ([] : FragMap) 0 = none from rfl]
  simp only [Option.getD_none]
  rw [if_pos (Or.inl (by norm_num))]
  unfold reinitBuffer
  rw [show listResize ([] : List Nat) 268435457 0 = List.replicate 268435457 0 from by
    unfold listResize
    rw [if_neg (by norm_num)]
    simp only [List.nil_append, List.length_nil, Nat.sub_zero]]
  set R : List Nat := List.replicate 268435457 0 with hR
  unfold applyFragment
  rw [if_neg (by norm_num)]
  rw [show (([76, 67, 48, 51, 0, 0, 0, 9, 16, 0, 0, 1, 0, 0, 0, 0, 0, 1, 0, 5] :
      List Nat).drop FRAG_HEADER_SIZE) = [] from by decide]
  dsimp only
  rw [if_neg (by norm_num)]
  rw [if_pos (by simp only [List.length_nil]; exact Nat.zero_le _)]
  unfold storeFragment
  simp only [List.length_nil, Nat.add_zero, List.take_zero, List.drop_zero,
    List.nil_append]
  rw [if_neg (by norm_num)]
  unfold updateFrag
  norm_num

theorem fragLoop_length (channel message : List Nat) (seq nFrags : Nat) :
    ∀ (fuel k offset : Nat),
      (fragLoop channel message seq nFrags k offset fuel).length = fuel := by
  intro fuel
  induction fuel with
  | zero => intro k offset; rfl
  | succ f ih =>
    intro k offset
    simp only [fragLoop, List.length_cons, ih]

theorem sendFragDatagrams_count (channel message : List Nat) (seq : Nat)
    (hch : channel.length ≤ 63) :
    (sendFragDatagrams channel message seq).map List.length
      = if 1 + (message.length + channel.length + 1) / 1380 > 65535 then none
        else some (1 + (message.length + channel.length + 1) / 1380) := by
  simp only [sendFragDatagrams, MAX_DATAGRAM_SIZE, FRAG_HEADER_SIZE]
  have harg : message.length + (1400 - 20) - (1400 - 20 - channel.length - 1)
      = message.length + channel.length + 1 := by omega
  rw [harg]
  by_cases hn : 1 + (message.length + channel.length + 1) / 1380 > 65535
  · rw [if_pos (by omega), if_pos hn]
    rfl
  · rw [if_neg (by omega), if_neg hn, Option.map_some']
    rw [fragLoop_length]

theorem sendFragDatagrams_count_lit (channel message : List Nat) (seq L C : Nat)
    (hL : message.length = L) (hC : channel.length = C) (hch : C ≤ 63) :
    (sendFragDatagrams channel message seq).map List.length
      = if 1 + (L + C + 1) / 1380 > 65535 then none
        else some (1 + (L + C + 1) / 1380) := by
  subst hL
  subst hC
  exact sendFragDatagrams_count channel message seq hch

/-- C4 fails as stated: publishing a 5000-byte payload on channel "BIG"
produces 4 fragment datagrams, not the 5 the claim asserts (even the
claim's own ceiling formula yields 4). -/
theorem fragment_count_counterexample :
    (sendFragDatagrams [66, 73, 71] (List.replicate 5000 7) 0).map List.length = some 4
    ∧ (sendFragDatagrams [66, 73, 71] (List.replicate 5000 7) 0).map List.length
        ≠ some 5 := by
  have h := sendFragDatagrams_count_lit [66, 73, 71] (List.replicate 5000 7) 0 5000 3
    (List.length_replicate _ _) rfl (by norm_num)
  rw [if_neg (by norm_num)] at h
  have h4 := h.trans (by norm_num : some (1 + (5000 + 3 + 1) / 1380) = some 4)
  exact ⟨h4, by rw [h4]; decide⟩

/-- C4 (amended): the number of fragment datagrams is
`1 + ⌊(|P| + |C| + 1) / 1380⌋` — the code's
`1 + ⌊(|P| + frag_payload − first_frag_payload) / frag_payload⌋` — and the
publish fails with ProviderIssue when that count exceeds 65535; the count
agrees with the claim's ceiling formula whenever 1380 does not divide
`|P| + |C| + 1` (at exact multiples the code sends one extra, empty-tail
fragment); a 5000-byte payload on channel "BIG" is sent as 4 fragments. -/
theorem fragment_count_amended :
    (∀ (channel message : List Nat) (seq : Nat), channel.length ≤ 63 →
        (sendFragDatagrams channel message seq).map List.length
          = if 1 + (message.length + channel.length + 1) / 1380 > 65535 then none
            else some (1 + (message.length + channel.length + 1) / 1380))
    ∧ (∀ (channel message : List Nat), channel.length ≤ 63 →
        1379 - channel.length < message.length →
        ¬ (1380 ∣ (message.length + channel.length + 1)) →
        1 + (message.length + channel.length + 1) / 1380
          = 1 + (message.length - (1379 - channel.length) + 1379) / 1380)
    ∧ (sendFragDatagrams [66, 73, 71] (List.replicate 5000 7) 0).map List.length
        = some 4 := by
  refine ⟨fun c m s h => sendFragDatagrams_count c m s h, ?_, ?_⟩
  · intro c m hch hgt hnd
    omega
  · have h := sendFragDatagrams_count_lit [66, 73, 71] (List.replicate 5000 7) 0 5000 3
      (List.length_replicate _ _) rfl (by norm_num)
    rw [if_neg (by norm_num)] at h
    exact h.trans (by norm_num : some (1 + (5000 + 3 + 1) / 1380) = some 4)

theorem fragment_count_amended_witness :
    (sendFragDatagrams (List.replicate 63 66) (List.replicate 2000 1) 0).map List.length
      = some 2 := by
  have h := fragment_count_amended.1 (List.replicate 63 66) (List.replicate 2000 1) 0
    (le_of_eq (List.length_replicate _ _))
  rw [List.length_replicate, List.length_replicate, if_neg (by norm_num)] at h
  exact h.trans (by norm_num : some (1 + (2000 + 63 + 1) / 1380) = some 2)


theorem frag_head28 (msg : List Nat) (hlen : msg.length = 5000) :
    (sendFragDatagrams [66, 73, 71] msg 0).map (fun ds => (ds.headD []).take 28)
      = some [76, 67, 48, 51, 0, 0, 0, 0, 0, 0, 19, 136, 0, 0, 0, 0,
              0, 0, 0, 0, 0, 0, 0, 4, 66, 73, 71, 0] := by
  simp only [sendFragDatagrams, MAX_DATAGRAM_SIZE, FRAG_HEADER_SIZE, hlen,
    List.length_cons, List.length_nil]
  norm_num
  rw [show fragLoop [66, 73, 71] msg 0 4 0 0 4
      = (fragDatagram [66, 73, 71] msg 0 0 4 0).1 ::
        fragLoop [66, 73, 71] msg 0 4 1 (0 + (fragDatagram [66, 73, 71] msg 0 0 4 0).2) 3
      from rfl]
  simp only [List.head?_cons, Option.getD_some]
  simp only [fragDatagram, MAX_DATAGRAM_SIZE, FRAG_HEADER_SIZE, hlen, if_pos,
    List.drop_zero]
  rw [show (beBytes 4 LONG_HEADER_MAGIC ++ beBytes 4 0 ++ beBytes 4 5000 ++
      beBytes 4 0 ++ beBytes 4 0 ++ beBytes 4 4 : List Nat)
      = [76, 67, 48, 51, 0, 0, 0, 0, 0, 0, 19, 136, 0, 0, 0, 0,
         0, 0, 0, 0, 0, 0, 0, 4] from by decide]
  rw [show ([66, 73, 71] ++ [0] : List Nat) = [66, 73, 71, 0] from rfl]
  rw [show ((1400 - ([76, 67, 48, 51, 0, 0, 0, 0, 0, 0, 19, 136, 0, 0, 0, 0,
      0, 0, 0, 0, 0, 0, 0, 4] : List Nat).length -
      ([66, 73, 71, 0] : List Nat).length) ⊓ 5000 : Nat) = 1372 from by decide]
  rw [show (20 + ([66, 73, 71, 0] : List Nat).length + 1372 : Nat) = 1396 from by decide]
  rw [List.take_take]
  rw [show (28 ⊓ 1396 : Nat) = 28 from by decide]
  rw [@List.take_left' Nat
    ([76, 67, 48, 51, 0, 0, 0, 0, 0, 0, 19, 136, 0, 0, 0, 0,
      0, 0, 0, 0, 0, 0, 0, 4] ++ [66, 73, 71, 0]) (List.take 1372 msg) 28 (by decide)]
  decide

/-- C3 fails on the code: in a fragmented publish the fragment index and
count are written with write_u32 (8 bytes where the 20-byte header expects
two u16s), so on the wire bytes 16–17 (the index field) are always 0,
bytes 18–19 hold the index, the count lands where the channel name should
start, and the datagram is truncated 4 bytes early; the first fragment of
a 5000-byte payload on channel "BIG" therefore starts with a 24-byte
header followed by the channel, instead of the prescribed 20-byte header
— and the concatenated payload bytes cannot equal P. -/
theorem frag_wire_layout_bug :
    (sendFragDatagrams [66, 73, 71] (List.replicate 5000 7) 0).map
        (fun ds => (ds.headD []).take 28)
      = some [76, 67, 48, 51, 0, 0, 0, 0, 0, 0, 19, 136, 0, 0, 0, 0,
              0, 0, 0, 0, 0, 0, 0, 4, 66, 73, 71, 0]
    ∧ ([76, 67, 48, 51, 0, 0, 0, 0, 0, 0, 19, 136, 0, 0, 0, 0,
        0, 0, 0, 0, 0, 0, 0, 4, 66, 73, 71, 0] : List Nat)
      ≠ [76, 67, 48, 51, 0, 0, 0, 0, 0, 0, 19, 136, 0, 0, 0, 0,
         0, 0, 0, 4, 66, 73, 71, 0, 7, 7, 7, 7] :=
  ⟨frag_head28 (List.replicate 5000 7) (List.length_replicate _ _), by decide⟩

theorem pushAll_append {α : Type} (r : Ring α) (xs : List α) (x : α) :
    Ring.pushAll r (xs ++ [x]) = (Ring.pushAll r xs).push x := by
  unfold Ring.pushAll
  rw [List.foldl_append]
  rfl

theorem push_step {α : Type} (r : Ring α) (x : α) (N t : Nat) (hN : 0 < N)
    (hc : r.capacity = N) (ht : r.tail = t) (hh : r.head = t - N)
    (hsh : r.shadowHead = t - N) (hfit : t + 1 + N < USZ) :
    (r.push x).capacity = N ∧ (r.push x).tail = t + 1
    ∧ (r.push x).head = (t + 1) - N ∧ (r.push x).shadowHead = (t + 1) - N
    ∧ (r.push x).shadowTail = r.shadowTail
    ∧ (r.push x).data = fun i => if i = t % N then x else r.data i := by
  unfold Ring.push
  rw [hc, ht, hh, hsh]
  dsimp only
  by_cases hcase : N ≤ t
  · rw [if_pos (by
      rw [Nat.sub_add_cancel hcase, Nat.mod_eq_of_lt (by unfold USZ at hfit ⊢; omega)])]
    rw [if_pos (by
      rw [Nat.sub_add_cancel hcase, Nat.mod_eq_of_lt (by unfold USZ at hfit ⊢; omega)])]
    refine ⟨rfl, ?_, ?_, ?_, rfl, rfl⟩
    · show wrapInc t = t + 1
      unfold wrapInc USZ
      unfold USZ at hfit
      omega
    · show wrapInc (t - N) = t + 1 - N
      unfold wrapInc USZ
      unfold USZ at hfit
      omega
    · show wrapInc (t - N) = t + 1 - N
      unfold wrapInc USZ
      unfold USZ at hfit
      omega
  · rw [if_neg (by
      rw [Nat.sub_eq_zero_of_le (le_of_not_le hcase), Nat.zero_add,
        Nat.mod_eq_of_lt (by unfold USZ at hfit ⊢; omega)]
      omega)]
    refine ⟨hc, ?_, ?_, ?_, rfl, ?_⟩
    · show wrapInc t = t + 1
      unfold wrapInc USZ
      unfold USZ at hfit
      omega
    · show r.head = t + 1 - N
      omega
    · show r.shadowHead = t + 1 - N
      omega
    · rw [hc]


theorem pushAll_state {α : Type} [Inhabited α] (N : Nat) (hN : 0 < N) :
    ∀ (items : List α), items.length + N < USZ →
      (Ring.pushAll (Ring.init α N) items).capacity = N
      ∧ (Ring.pushAll (Ring.init α N) items).tail = items.length
      ∧ (Ring.pushAll (Ring.init α N) items).head = items.length - N
      ∧ (Ring.pushAll (Ring.init α N) items).shadowHead = items.length - N
      ∧ (Ring.pushAll (Ring.init α N) items).shadowTail = 0
      ∧ ∀ i, items.length - N ≤ i → i < items.length →
          (Ring.pushAll (Ring.init α N) items).data (i % N) = items.getD i default := by
  intro items
  induction items using List.reverseRecOn with
  | nil =>
    intro hfit
    refine ⟨rfl, rfl, by simp [Ring.pushAll, Ring.init],
      by simp [Ring.pushAll, Ring.init], rfl, ?_⟩
    intro i h1 h2
    simp at h2
  | append_singleton xs x ih =>
    intro hfit
    have hlen : (xs ++ [x]).length = xs.length + 1 := by simp
    obtain ⟨hc, ht, hh, hsh, hst, hdata⟩ := ih (by simp at hfit; omega)
    have hstep := push_step (Ring.pushAll (Ring.init α N) xs) x N xs.length hN
      hc ht hh hsh (by simp at hfit; omega)
    rw [pushAll_append]
    obtain ⟨sc, st, sh, ssh, sst, sdata⟩ := hstep
    refine ⟨sc, by rw [st, hlen], by rw [sh, hlen], by rw [ssh, hlen],
      by rw [sst, hst], ?_⟩
    intro i h1 h2
    rw [hlen] at h1 h2
    simp only [sdata]
    by_cases hi : i = xs.length
    · subst hi
      rw [if_pos rfl]
      rw [List.getD_eq_getElem?_getD, List.getElem?_concat_length]
      rfl
    · have hilt : i < xs.length := by omega
      rw [if_neg (by
        intro hmod
        have hdvd : N ∣ xs.length - i := (Nat.modEq_iff_dvd' (le_of_lt hilt)).mp hmod
        have hlt : xs.length - i < N := by omega
        have hpos : 0 < xs.length - i := by omega
        have := Nat.le_of_dvd hpos hdvd
        omega)]
      rw [hdata i (by omega) hilt]
      rw [List.getD_eq_getElem?_getD, List.getD_eq_getElem?_getD,
        List.getElem?_append_left hilt]


theorem drain_from {α : Type} [Inhabited α] (N : Nat) :
    ∀ (cnt : Nat) (r : Ring α) (t h : Nat),
      r.capacity = N → r.tail = t → r.head = h → h ≤ t → t < USZ →
      (r.shadowTail = 0 ∨ r.shadowTail = t) →
      h + cnt = t →
      r.drain (cnt + 1)
        = ((List.range' h cnt).map (fun i => some (r.data (i % N)))) ++ [none] := by
  intro cnt
  induction cnt with
  | zero =>
    intro r t h hc ht hh hle hlt hst hsum
    have hht : h = t := by omega
    unfold Ring.drain Ring.pop
    rw [hh]
    dsimp only
    rcases hst with hst | hst
    · rw [hst, if_pos (Nat.zero_le h), if_pos (hht.trans ht.symm)]
      rfl
    · rw [hst, if_pos (le_of_eq hht.symm), if_pos (hht.trans ht.symm)]
      rfl
  | succ c ih =>
    intro r t h hc ht hh hle hlt hst hsum
    have hhlt : h < t := by omega
    show (r.drain (c + 1 + 1)) = _
    unfold Ring.drain Ring.pop
    rw [hh]
    dsimp only
    rcases hst with hst | hst
    · rw [hst, if_pos (Nat.zero_le h), if_neg (by omega)]
      dsimp only
      rw [ih { r with shadowTail := r.tail, head := wrapInc h } t (wrapInc h)
        hc ht rfl
        (by unfold wrapInc USZ; unfold USZ at hlt; omega) hlt
        (Or.inr ht)
        (by unfold wrapInc USZ; unfold USZ at hlt; omega)]
      dsimp only
      rw [List.range'_succ]
      simp only [List.map_cons, List.cons_append]
      rw [show wrapInc h = h + 1 from by unfold wrapInc USZ; unfold USZ at hlt; omega, hc]
    · rw [hst, if_neg (by omega)]
      dsimp only
      rw [ih { r with head := wrapInc h, shadowTail := t } t (wrapInc h)
        hc ht rfl
        (by unfold wrapInc USZ; unfold USZ at hlt; omega) hlt
        (Or.inr rfl)
        (by unfold wrapInc USZ; unfold USZ at hlt; omega)]
      dsimp only
      rw [List.range'_succ]
      simp only [List.map_cons, List.cons_append]
      rw [show wrapInc h = h + 1 from by unfold wrapInc USZ; unfold USZ at hlt; omega, hc]


theorem range'_map_getD {α : Type} [Inhabited α] :
    ∀ (b a : Nat) (l : List α), a + b = l.length →
      (List.range' a b).map (fun i => some (l.getD i default)) = (l.drop a).map some := by
  intro b
  induction b with
  | zero =>
    intro a l h
    rw [show a = l.length from by omega, List.drop_length]
    rfl
  | succ b ih =>
    intro a l h
    rw [List.range'_succ]
    simp only [List.map_cons]
    rw [List.drop_eq_getElem_cons (show a < l.length from by omega)]
    simp only [List.map_cons]
    rw [List.getD_eq_getElem _ _ (show a < l.length from by omega)]
    rw [ih (a + 1) l (by omega)]

/-- C9: used sequentially (all pushes, then pops), a ring of capacity N
holds the last `min k N` of k pushed items: popping repeatedly yields
exactly the last `min k N` items in push order followed by `none` — the
whole list when k ≤ N, and exactly the last N (the oldest k − N evicted)
on overflow. -/
theorem spsc_sequential_spec (α : Type) [Inhabited α] (N : Nat) (items : List α)
    (hN : 0 < N) (hfit : items.length + N < USZ) :
    (Ring.pushAll (Ring.init α N) items).drain (min items.length N + 1)
      = ((items.drop (items.length - N)).map some) ++ [none] := by
  obtain ⟨hc, ht, hh, hsh, hst, hdata⟩ := pushAll_state N hN items hfit
  rw [drain_from N (min items.length N) _ items.length (items.length - N)
    hc ht hh (by omega) (by unfold USZ at hfit ⊢; omega) (Or.inl hst) (by omega)]
  congr 1
  have hmapeq : (List.range' (items.length - N) (min items.length N)).map
      (fun i => some ((Ring.pushAll (Ring.init α N) items).data (i % N)))
      = (List.range' (items.length - N) (min items.length N)).map
        (fun i => some (items.getD i default)) :=
    List.map_congr_left (fun i hi => by
      obtain ⟨j, hj, rfl⟩ := List.mem_range'.mp hi
      rw [hdata (items.length - N + 1 * j) (by omega) (by omega)])
  rw [hmapeq]
  exact range'_map_getD (min items.length N) (items.length - N) items (by omega)

theorem spsc_sequential_spec_witness :
    (Ring.pushAll (Ring.init Nat 2) [10, 20, 30]).drain 3
      = [some 20, some 30, none] := by
  have h := spsc_sequential_spec Nat 2 [10, 20, 30] (by norm_num)
    (by unfold USZ; norm_num)
  simpa using h

theorem dispatcher_spec_witness : runStepContinues true .full = true :=
  dispatcher_spec.2.2.2.2.2.2 true .full (by decide)

end LcmModel
